import Mathlib

/-!
Verification of the unicode abbreviation engine of the SublimeText LSP-Lean
plugin (file plugin_unicode.py).

Modelling conventions of the shallow embedding:
* python strings are lists of characters (Str);
* the python dict of abbreviations is an association list (Table), with
  membership tests and value access both going through List.lookup,
  mirroring the dict;
* Sublime regions are pairs of buffer offsets; Region.begin is the minimum,
  Region.end the maximum, Region.contains is inclusive at both endpoints,
  and a Region is falsy in python iff it is empty (Region implements a
  size-based length);
* view.substr clamps to the buffer and normalizes its region;
* the side effect of view.run_command with lean_replace_abbreviation is
  recorded as a Commit value, and a driver (runScript) applies the commits
  to the buffer the way Sublime does.
-/

abbrev Str := List Char

def str (s : String) : Str := s.data

abbrev Table := List (Str × Str)

def keys (t : Table) : List Str := t.map Prod.fst

/-- dict membership and dict.get of the python abbreviations mapping
(LeanUnicodeInput.get_replacement). -/
def get_replacement (t : Table) (text : Str) : Option Str :=
  List.lookup text t

/-- LeanUnicodeInput.build_prefix_tree: every slice k[:i] of every key k,
for i in range(1, len(k) + 1). -/
def build_prefix_tree (t : Table) : List Str :=
  (keys t).flatMap (fun k => (List.range k.length).map (fun i => k.take (i + 1)))

/-- LeanUnicodeInput.is_prefix: membership of the prefix tree. -/
def is_prefix (t : Table) (text : Str) : Bool :=
  (build_prefix_tree t).contains text

/-- LeanUnicodeInput.is_complete_abbreviation: membership of the table, and
no key starts with text + "x" (the literal character x, as in the source). -/
def is_complete_abbreviation (t : Table) (text : Str) : Bool :=
  if (get_replacement t text).isSome then
    ! (keys t).any (fun k => List.isPrefixOf (text ++ ['x']) k)
  else false

/-- LeanUnicodeInput.get_shortest_match: the candidate slices text[:length]
for length in range(1, len(text) + 1), in ascending order. -/
def matchCandidates (text : Str) : List Str :=
  (List.range text.length).map (fun i => text.take (i + 1))

/-- LeanUnicodeInput.get_shortest_match: first candidate slice that is a key
of the table, none otherwise. -/
def get_shortest_match (t : Table) (text : Str) : Option Str :=
  (matchCandidates text).find? (fun pre => (get_replacement t pre).isSome)

/-- Configuration consumed by the listener: the unicode_input_enabled,
unicode_input_leader, unicode_input_ender, unicode_input_eager_replacement
settings. -/
structure Config where
  enabled : Bool
  leader : Str
  ender : Str
  eager : Bool
deriving DecidableEq

/-- Per-view listener state of LeanUnicodeListener: the cached abbreviation
text and the tracked region. -/
structure ListenerState where
  pending_abbreviation : Str
  pending_region : Option (Nat × Nat)
deriving DecidableEq

/-- Arguments of one run of the lean_replace_abbreviation command. -/
structure Commit where
  rbegin : Nat
  rend : Nat
  replacement : Str
deriving DecidableEq

/-- view.substr over Region a b: normalized endpoints, clamped to the
buffer. -/
def substr (buf : Str) (a b : Nat) : Str :=
  (buf.take (max a b)).drop (min a b)

/-- Region.contains: inclusive at both normalized endpoints.  The probe is
an integer because on_modified probes point - 1. -/
def regionContains (a b : Nat) (p : Int) : Bool :=
  decide ((min a b : Int) ≤ p) && decide (p ≤ (max a b : Int))

/-- python truthiness of the optional pending Region: None and empty
regions are falsy. -/
def regionTruthy : Option (Nat × Nat) → Bool
  | none => false
  | some (a, b) => a != b

def regionContainsOpt : Option (Nat × Nat) → Int → Bool
  | none, _ => false
  | some (a, b), p => regionContains a b p

/-- python text[-n:] (n = 0 yields the whole string). -/
def pySuffix (l : Str) (n : Nat) : Str :=
  if n = 0 then l else l.drop (l.length - n)

/-- python text[:-n] (n = 0 yields the empty string). -/
def pyDropSuffix (l : Str) (n : Nat) : Str :=
  if n = 0 then [] else l.take (l.length - n)

/-- LeanUnicodeListener.replace_abbreviation: with a truthy pending region,
run lean_replace_abbreviation over it and clear the pending state; with a
falsy pending region, return unchanged. -/
def replace_abbreviation (st : ListenerState) (replacement : Str) :
    ListenerState × List Commit :=
  match st.pending_region with
  | none => (st, [])
  | some (a, b) =>
    if a = b then (st, [])
    else (⟨[], none⟩, [⟨min a b, max a b, replacement⟩])

/-- Eager block of LeanUnicodeListener.update_abbreviation (lines 217-221):
when eager is set and the text is a complete abbreviation with a truthy
replacement, replace immediately. -/
def eager_step (cfg : Config) (t : Table) (st1 : ListenerState)
    (abbrev_text : Str) : ListenerState × List Commit :=
  if cfg.eager && is_complete_abbreviation t abbrev_text then
    match get_replacement t abbrev_text with
    | some r => if r = [] then (st1, []) else replace_abbreviation st1 r
    | none => (st1, [])
  else (st1, [])

/-- Ender block of LeanUnicodeListener.update_abbreviation (lines 222-228):
when the text is long enough, strip a trailing ender and replace if the
stripped text is a complete abbreviation with a truthy replacement. -/
def ender_step (cfg : Config) (t : Table) (st2 : ListenerState)
    (abbrev_text : Str) : ListenerState × List Commit :=
  if cfg.ender.length ≤ abbrev_text.length then
    let ender_text := pySuffix abbrev_text cfg.ender.length
    let base := pyDropSuffix abbrev_text cfg.ender.length
    if is_complete_abbreviation t base && (ender_text == cfg.ender) then
      match get_replacement t base with
      | some r => if r = [] then (st2, []) else replace_abbreviation st2 r
      | none => (st2, [])
    else (st2, [])
  else (st2, [])

/-- LeanUnicodeListener.update_abbreviation.  The text of the candidate
abbreviation is the buffer substring from just after the leader to the
cursor; if it passes the prefix test, the cached text and region are
updated and the eager and ender blocks run in order; otherwise the pending
state is cleared. -/
def update_abbreviation (cfg : Config) (t : Table) (buf : Str)
    (st : ListenerState) (point : Nat) : ListenerState × List Commit :=
  match st.pending_region with
  | none => (st, [])
  | some (a, b) =>
    if a = b then (st, [])
    else
      let abbrev_text := substr buf (min a b + cfg.leader.length) point
      if is_prefix t abbrev_text then
        let st1 : ListenerState := ⟨abbrev_text, some (min a b, point)⟩
        let ec := eager_step cfg t st1 abbrev_text
        let fc := ender_step cfg t ec.1 abbrev_text
        (fc.1, ec.2 ++ fc.2)
      else (⟨[], none⟩, [])

/-- LeanUnicodeListener.on_modified at cursor position point: if a truthy
pending region contains point - 1, update the abbreviation; otherwise, if
the characters right before the cursor equal the leader, start tracking
with empty cached text. -/
def on_modified (cfg : Config) (t : Table) (buf : Str) (st : ListenerState)
    (point : Nat) : ListenerState × List Commit :=
  if cfg.enabled = false then (st, [])
  else if regionTruthy st.pending_region
      && regionContainsOpt st.pending_region ((point : Int) - 1) then
    update_abbreviation cfg t buf st point
  else if 0 < point then
    let start := point - cfg.leader.length
    let prev_char := substr buf start point
    if prev_char == cfg.leader then (⟨[], some (start, point)⟩, [])
    else (st, [])
  else (st, [])

/-- LeanUnicodeListener.on_selection_modified at cursor position point:
with a truthy pending region not containing the cursor, replace the cached
abbreviation when it has a truthy replacement, then clear the pending
state. -/
def on_selection_modified (t : Table) (st : ListenerState) (point : Nat) :
    ListenerState × List Commit :=
  match st.pending_region with
  | none => (st, [])
  | some (a, b) =>
    if a = b then (st, [])
    else if regionContains a b (point : Int) then (st, [])
    else
      let rc :=
        if st.pending_abbreviation = [] then (st, ([] : List Commit))
        else
          match get_replacement t st.pending_abbreviation with
          | some r => if r = [] then (st, []) else replace_abbreviation st r
          | none => (st, [])
      (⟨[], none⟩, rc.2)

/-- LeanReplaceAbbreviationCommand.run: view.replace of the given region by
the replacement text, verbatim. -/
def lean_replace_abbreviation (buf : Str) (region_begin region_end : Nat)
    (replacement : Str) : Str :=
  buf.take (min region_begin region_end) ++ replacement
    ++ buf.drop (max region_begin region_end)

/-- Offset of the beginning of the line containing position p
(view.line(p).begin()). -/
def lineStart (buf : Str) (p : Nat) : Nat :=
  p - ((buf.take p).reverse.takeWhile (fun c => c != '\n')).length

/-- python str.rfind: the highest index at which the needle occurs in the
haystack, none when it does not occur. -/
def rfind (hay needle : Str) : Option Nat :=
  (List.range (hay.length + 1)).reverse.find?
    (fun i => List.isPrefixOf needle (hay.drop i))

/-- search_start of LeanConvertAbbreviationCommand.run: look back at most
20 characters and never before the start of the line of the cursor. -/
def convert_window_start (buf : Str) (point : Nat) : Nat :=
  max (lineStart buf point) (point - 20)

/-- LeanConvertAbbreviationCommand.run at cursor position point: search the
window reaching back at most 20 characters and never before the line start
for the last leader, take the shortest key matching the text after it, and
replace from the leader to the end of that key.  (search_start and
abbrev_start of the source are inlined through convert_window_start.) -/
def lean_convert_abbreviation (cfg : Config) (t : Table) (buf : Str)
    (point : Nat) : Str :=
  if cfg.enabled = false then buf
  else
    match rfind (substr buf (convert_window_start buf point) point)
        cfg.leader with
    | none => buf
    | some leader_pos =>
      match get_shortest_match t (substr buf
          (convert_window_start buf point + leader_pos + cfg.leader.length)
          point) with
      | none => buf
      | some m =>
        match get_replacement t m with
        | none => buf
        | some r =>
          if r = [] then buf
          else lean_replace_abbreviation buf
            (convert_window_start buf point + leader_pos)
            (convert_window_start buf point + leader_pos + cfg.leader.length
              + m.length) r

/-- Editor-side driver state: the buffer, the cursor, the listener state and
the log of all commits performed so far. -/
structure EditorState where
  buf : Str
  cursor : Nat
  listener : ListenerState
  commits : List Commit
deriving DecidableEq

/-- Apply one commit to the buffer (the effect of view.replace). -/
def applyCommitBuf (buf : Str) (c : Commit) : Str :=
  lean_replace_abbreviation buf c.rbegin c.rend c.replacement

/-- Cursor adjustment Sublime performs on view.replace. -/
def adjustCursor (cursor : Nat) (c : Commit) : Nat :=
  let a := min c.rbegin c.rend
  let b := max c.rbegin c.rend
  if b ≤ cursor then cursor - (b - a) + c.replacement.length
  else if cursor ≤ a then cursor
  else a + c.replacement.length

def applyCommits : EditorState → List Commit → EditorState
  | es, [] => es
  | es, c :: cs =>
    applyCommits
      { buf := applyCommitBuf es.buf c
        cursor := adjustCursor es.cursor c
        listener := es.listener
        commits := es.commits ++ [c] } cs

/-- User-visible events: typing a string at the cursor, or moving the
cursor.  Typing triggers on_modified with the cursor after the insertion;
moving triggers on_selection_modified. -/
inductive Ev where
  | insert (s : Str)
  | move (p : Nat)
deriving DecidableEq

def stepEv (cfg : Config) (t : Table) (es : EditorState) (e : Ev) :
    EditorState :=
  match e with
  | .insert s =>
    let buf1 := es.buf.take es.cursor ++ s ++ es.buf.drop es.cursor
    let cur1 := es.cursor + s.length
    let hr := on_modified cfg t buf1 es.listener cur1
    applyCommits
      { buf := buf1, cursor := cur1, listener := hr.1, commits := es.commits }
      hr.2
  | .move p =>
    let hr := on_selection_modified t es.listener p
    applyCommits
      { buf := es.buf, cursor := p, listener := hr.1, commits := es.commits }
      hr.2

def runScript (cfg : Config) (t : Table) (es : EditorState)
    (evs : List Ev) : EditorState :=
  evs.foldl (stepEv cfg t) es

def initES : EditorState := ⟨[], 0, ⟨[], none⟩, []⟩

/-- Invariant of a tracking session: the cached text is empty or passes the
prefix test. -/
def SessionInv (t : Table) (st : ListenerState) : Prop :=
  st.pending_region.isSome = true →
    st.pending_abbreviation = [] ∨ is_prefix t st.pending_abbreviation = true

/-- The default leader, tab ender, eager off. -/
def cfgDefault : Config := ⟨true, str "\\", str "\t", false⟩

/-- The default leader and ender with eager replacement on. -/
def cfgEager : Config := ⟨true, str "\\", str "\t", true⟩

def tblForall : Table := [(str "forall", str "∀")]

def tblToTop : Table := [(str "to", str "→"), (str "top", str "⊤")]

def tblAlpha : Table := [(str "alpha", str "α")]

def tblAlphaEmpty : Table := [(str "alpha", [])]

lemma mem_build_prefix_tree (t : Table) (s : Str) :
    s ∈ build_prefix_tree t ↔ s ≠ [] ∧ ∃ k ∈ keys t, s <+: k := by
  unfold build_prefix_tree
  constructor
  · intro h
    rcases List.mem_flatMap.1 h with ⟨k, hk, hs⟩
    rcases List.mem_map.1 hs with ⟨i, hi, rfl⟩
    have hi2 : i < k.length := List.mem_range.1 hi
    constructor
    · intro he
      have hl : (k.take (i + 1)).length = 0 := by rw [he]; rfl
      rw [List.length_take] at hl
      omega
    · exact ⟨k, hk, List.take_prefix _ _⟩
  · rintro ⟨hne, k, hk, hpre⟩
    have h1 : 0 < s.length := List.length_pos.2 hne
    have h2 : s.length ≤ k.length := hpre.length_le
    refine List.mem_flatMap.2
      ⟨k, hk, List.mem_map.2 ⟨s.length - 1, List.mem_range.2 (by omega), ?_⟩⟩
    have h3 : s.length - 1 + 1 = s.length := by omega
    rw [h3]
    exact (List.prefix_iff_eq_take.1 hpre).symm

lemma is_prefix_iff (t : Table) (s : Str) :
    is_prefix t s = true ↔ s ≠ [] ∧ ∃ k ∈ keys t, s <+: k := by
  unfold is_prefix
  have h : (build_prefix_tree t).contains s = true ↔ s ∈ build_prefix_tree t :=
    List.elem_iff
  rw [h, mem_build_prefix_tree]

/-- Claim C6: the derived prefix set is exactly the set of non-empty
prefixes of the keys: every slice k[:i] with 1 ≤ i ≤ len(k) of a key k
passes the prefix test, and every string that is a prefix of no key fails
it. -/
theorem c6_prefix_set_sound (t : Table) :
    (∀ k ∈ keys t, ∀ i, 1 ≤ i → i ≤ k.length → is_prefix t (k.take i) = true) ∧
    (∀ s : Str, (∀ k ∈ keys t, ¬ s <+: k) → is_prefix t s = false) := by
  constructor
  · intro k hk i h1 h2
    rw [is_prefix_iff]
    refine ⟨?_, ⟨k, hk, List.take_prefix _ _⟩⟩
    intro he
    have hl : (k.take i).length = 0 := by rw [he]; rfl
    rw [List.length_take] at hl
    omega
  · intro s hs
    cases hh : is_prefix t s
    · rfl
    · rcases (is_prefix_iff t s).1 hh with ⟨-, k, hk, hpre⟩
      exact absurd hpre (hs k hk)

/-- Witness for C6 at the table with keys to and top: the slice t of the
key to passes the prefix test, while x (a prefix of no key) fails it. -/
theorem c6_prefix_set_sound_witness :
    is_prefix tblToTop ((str "to").take 1) = true ∧
    is_prefix tblToTop (str "x") = false :=
  ⟨(c6_prefix_set_sound tblToTop).1 (str "to") (by decide) 1 (by decide)
      (by decide),
   (c6_prefix_set_sound tblToTop).2 (str "x") (by decide)⟩

/-- Claim C7 counterexample: on the table with the single key forall, the
prefix test on the empty string returns false, not true as claimed. -/
theorem c7_counterexample : is_prefix tblForall [] = false := by decide

/-- Claim C7 amended: for every table, the prefix test on the empty string
returns false: build_prefix_tree only ever inserts slices of length at
least 1, so the empty string is never a member. -/
theorem c7_amended (t : Table) : is_prefix t [] = false := by
  cases hh : is_prefix t []
  · rfl
  · rcases (is_prefix_iff t []).1 hh with ⟨hne, -⟩
    exact absurd rfl hne

/-- Claim C2 (code bug evidence): with keys to and top, the completeness
check returns true for to even though top is another key properly extended
from it, because the source only tests extendability by the literal
character x (text + "x") instead of any character.  The claim (and the
comment in the source) say the strict check must return false here; the
non-strict part (to is a key) does hold. -/
theorem c2_strict_check_divergence :
    is_complete_abbreviation tblToTop (str "to") = true ∧
    (get_replacement tblToTop (str "to")).isSome = true ∧
    str "top" ∈ keys tblToTop ∧
    str "to" ≠ str "top" ∧
    str "to" <+: str "top" := by decide

lemma lookup_isSome_of_mem_keys (t : Table) (k : Str) (h : k ∈ keys t) :
    (get_replacement t k).isSome = true := by
  induction t with
  | nil => simp [keys] at h
  | cons hd tl ih =>
    rcases hd with ⟨a, v⟩
    have hkeys : keys ((a, v) :: tl) = a :: keys tl := rfl
    rw [hkeys] at h
    show (List.lookup k ((a, v) :: tl)).isSome = true
    rw [List.lookup_cons]
    cases hbe : k == a
    · have hne : k ≠ a := by
        intro he
        rw [he] at hbe
        simp at hbe
      have hk : k ∈ keys tl := by
        rcases List.mem_cons.1 h with h1 | h1
        · exact absurd h1 hne
        · exact h1
      exact ih hk
    · rfl

lemma mem_keys_of_lookup_isSome (t : Table) (k : Str)
    (h : (get_replacement t k).isSome = true) : k ∈ keys t := by
  induction t with
  | nil => simp [get_replacement, List.lookup] at h
  | cons hd tl ih =>
    rcases hd with ⟨a, v⟩
    rw [show get_replacement ((a, v) :: tl) k = List.lookup k ((a, v) :: tl)
      from rfl, List.lookup_cons] at h
    show k ∈ a :: keys tl
    cases hbe : k == a
    · rw [hbe] at h
      exact List.mem_cons.2 (Or.inr (ih h))
    · exact List.mem_cons.2 (Or.inl (beq_iff_eq.mp hbe))

lemma find?_first_idx {α : Type} (p : α → Bool) (l : List α) (m : α)
    (h : l.find? p = some m) :
    ∃ j, j < l.length ∧ l[j]? = some m ∧ p m = true ∧
      ∀ i x, i < j → l[i]? = some x → p x = false := by
  induction l with
  | nil => simp [List.find?] at h
  | cons hd tl ih =>
    cases hp : p hd
    · rw [List.find?_cons_of_neg tl (by simp [hp])] at h
      rcases ih h with ⟨j, hj, hg, hpm, hfirst⟩
      refine ⟨j + 1, by simpa using Nat.succ_lt_succ hj, by simpa using hg,
        hpm, ?_⟩
      intro i x hi hx
      cases i with
      | zero =>
        have hxh : hd = x := by simpa using hx
        rw [← hxh]
        exact hp
      | succ i2 =>
        exact hfirst i2 x (by omega) (by simpa using hx)
    · rw [List.find?_cons_of_pos tl hp] at h
      injection h with h
      subst h
      exact ⟨0, by simp, by simp, hp, fun i x hi _ => absurd hi (by omega)⟩

lemma get_shortest_match_none (t : Table) (s : Str)
    (h : get_shortest_match t s = none) :
    ∀ k ∈ keys t, k ≠ [] → ¬ k <+: s := by
  unfold get_shortest_match at h
  rw [List.find?_eq_none] at h
  intro k hk hkne hkpre
  have hklen : 0 < k.length := List.length_pos.2 hkne
  have hkle : k.length ≤ s.length := hkpre.length_le
  have hkc : k ∈ matchCandidates s := by
    unfold matchCandidates
    refine List.mem_map.2 ⟨k.length - 1, List.mem_range.2 (by omega), ?_⟩
    have h3 : k.length - 1 + 1 = k.length := by omega
    rw [h3]
    exact (List.prefix_iff_eq_take.1 hkpre).symm
  exact absurd (lookup_isSome_of_mem_keys t k hk) (by simpa using h k hkc)

lemma length_matchCandidates (s : Str) : (matchCandidates s).length = s.length := by
  unfold matchCandidates
  rw [List.length_map, List.length_range]

lemma getElem?_matchCandidates (s : Str) (j : Nat) (hj : j < s.length) :
    (matchCandidates s)[j]? = some (s.take (j + 1)) := by
  unfold matchCandidates
  rw [List.getElem?_map, List.getElem?_range hj]
  rfl

lemma get_shortest_match_some (t : Table) (s m : Str)
    (h : get_shortest_match t s = some m) :
    m ∈ keys t ∧ m <+: s ∧ m ≠ [] ∧
      ∀ k ∈ keys t, k ≠ [] → k <+: s → m.length ≤ k.length := by
  have h0 : (matchCandidates s).find?
      (fun pre => (get_replacement t pre).isSome) = some m := by
    unfold get_shortest_match at h
    exact h
  have hp : (get_replacement t m).isSome = true := by
    have hb := List.find?_some h0
    simpa using hb
  have hmem : m ∈ matchCandidates s := List.mem_of_find?_eq_some h0
  rcases List.mem_map.1 (by unfold matchCandidates at hmem; exact hmem) with
    ⟨i, hi, hm⟩
  have hkm : m ∈ keys t := mem_keys_of_lookup_isSome t m hp
  have hpre : m <+: s := by
    rw [← hm]
    exact List.take_prefix _ _
  have hi2 : i < s.length := List.mem_range.1 hi
  have hlen : m.length = i + 1 := by
    rw [← hm, List.length_take]
    omega
  have hne : m ≠ [] := by
    intro he
    rw [he] at hlen
    simp at hlen
  refine ⟨hkm, hpre, hne, ?_⟩
  intro k hk hkne hkpre
  by_contra hlt
  push_neg at hlt
  rcases find?_first_idx _ _ _ h0 with ⟨j, hj, hg, -, hfirst⟩
  have hjs : j < s.length := by
    rw [length_matchCandidates] at hj
    exact hj
  have hmj : m = s.take (j + 1) := by
    have := getElem?_matchCandidates s j hjs
    rw [hg] at this
    injection this
  have hmlen : m.length = j + 1 := by
    rw [hmj, List.length_take]
    omega
  have hklen : 0 < k.length := List.length_pos.2 hkne
  have hkle : k.length ≤ s.length := hkpre.length_le
  have hik : k.length - 1 < j := by omega
  have hcand : (matchCandidates s)[k.length - 1]? = some k := by
    rw [getElem?_matchCandidates s (k.length - 1) (by omega)]
    have h3 : k.length - 1 + 1 = k.length := by omega
    rw [h3, ← List.prefix_iff_eq_take.1 hkpre]
  have hkfalse := hfirst (k.length - 1) k hik hcand
  exact absurd (lookup_isSome_of_mem_keys t k hk) (by simp [hkfalse])

/-- Claim C8: get_shortest_match scans the slices of length 1 up to the
length of the text in ascending order and returns the first table key
among them; hence a returned match is a key, a prefix of the text, and no
longer than any other key that is a prefix of the text, and a none result
means no prefix of the text is a key.  The hypothesis restates the data
model invariant that keys are non-empty. -/
theorem c8_shortest_match (t : Table) (s : Str)
    (hkeys : ∀ p ∈ t, p.1 ≠ []) :
    (get_shortest_match t s = none → ∀ k ∈ keys t, ¬ k <+: s) ∧
    (∀ m, get_shortest_match t s = some m →
      m ∈ keys t ∧ m <+: s ∧
        ∀ k ∈ keys t, k <+: s → m.length ≤ k.length) := by
  have hne : ∀ k ∈ keys t, k ≠ [] := by
    intro k hk
    rcases List.mem_map.1 hk with ⟨p, hp, hpe⟩
    rw [← hpe]
    exact hkeys p hp
  constructor
  · intro h k hk
    exact get_shortest_match_none t s h k hk (hne k hk)
  · intro m h
    rcases get_shortest_match_some t s m h with ⟨h1, h2, -, h4⟩
    exact ⟨h1, h2, fun k hk hkp => h4 k hk (hne k hk) hkp⟩

/-- Witness for C8: on the table with keys to and top and the text top, the
shortest match is to, which is a key, a prefix of top, and minimal among
key-prefixes of top. -/
theorem c8_shortest_match_witness :
    get_shortest_match tblToTop (str "top") = some (str "to") ∧
    (str "to" ∈ keys tblToTop ∧ str "to" <+: str "top" ∧
      ∀ k ∈ keys tblToTop, k <+: str "top" →
        (str "to").length ≤ k.length) :=
  ⟨by decide,
   (c8_shortest_match tblToTop (str "top") (by decide)).2 (str "to")
     (by decide)⟩

/-- Claim C10: the manual conversion command looks for the leader only in
the window reaching back at most 20 characters from the cursor and never
before the start of the line of the cursor (convert_window_start); when the
leader does not occur in that window, or when no prefix of the text after
the last such leader is a table key, the buffer is returned unchanged. -/
theorem c10_convert_bounded_window (cfg : Config) (t : Table) (buf : Str)
    (point : Nat) :
    ((∀ i, i ≤ (substr buf (convert_window_start buf point) point).length →
        List.isPrefixOf cfg.leader
          ((substr buf (convert_window_start buf point) point).drop i)
          = false) →
      lean_convert_abbreviation cfg t buf point = buf) ∧
    (∀ lp, rfind (substr buf (convert_window_start buf point) point)
        cfg.leader = some lp →
      (∀ k ∈ keys t, ¬ k <+: substr buf
          (convert_window_start buf point + lp + cfg.leader.length) point) →
      lean_convert_abbreviation cfg t buf point = buf) := by
  constructor
  · intro h
    have hr : rfind (substr buf (convert_window_start buf point) point)
        cfg.leader = none := by
      unfold rfind
      rw [List.find?_eq_none]
      intro x hx
      rw [List.mem_reverse, List.mem_range] at hx
      simp only [Bool.not_eq_true]
      exact h x (by omega)
    unfold lean_convert_abbreviation
    rw [hr]
    by_cases hcfg : cfg.enabled = false <;> simp [hcfg]
  · intro lp hlp hnok
    cases hg : get_shortest_match t (substr buf
        (convert_window_start buf point + lp + cfg.leader.length) point) with
    | none =>
      simp only [lean_convert_abbreviation, hlp, hg]
      by_cases hcfg : cfg.enabled = false <;> simp [hcfg]
    | some m =>
      rcases get_shortest_match_some _ _ _ hg with ⟨h1, h2, -, -⟩
      exact absurd h2 (hnok m h1)

/-- Witness for C10: with buffer hello (no leader anywhere), the command
leaves the buffer unchanged. -/
theorem c10_convert_bounded_window_witness :
    (∀ i, i ≤ (substr (str "hello")
        (convert_window_start (str "hello") 5) 5).length →
      List.isPrefixOf cfgDefault.leader
        ((substr (str "hello")
          (convert_window_start (str "hello") 5) 5).drop i) = false) ∧
    lean_convert_abbreviation cfgDefault tblForall (str "hello") 5
      = str "hello" :=
  ⟨by decide,
   (c10_convert_bounded_window cfgDefault tblForall (str "hello") 5).1
     (by decide)⟩

instance (t : Table) (st : ListenerState) : Decidable (SessionInv t st) := by
  unfold SessionInv
  infer_instance

lemma session_inv_idle (t : Table) : SessionInv t ⟨[], none⟩ := by
  intro hs
  simp at hs

lemma replace_state_cases (st : ListenerState) (r : Str) :
    (replace_abbreviation st r).1 = st
      ∨ (replace_abbreviation st r).1 = ⟨[], none⟩ := by
  unfold replace_abbreviation
  cases hr : st.pending_region with
  | none => exact Or.inl rfl
  | some ab =>
    rcases ab with ⟨a, b⟩
    by_cases hab : a = b
    · simp [hab]
    · simp [hab]

lemma eager_state_cases (cfg : Config) (t : Table) (st1 : ListenerState)
    (a : Str) :
    (eager_step cfg t st1 a).1 = st1
      ∨ (eager_step cfg t st1 a).1 = ⟨[], none⟩ := by
  unfold eager_step
  split
  · split
    · split
      · exact Or.inl rfl
      · exact replace_state_cases st1 _
    · exact Or.inl rfl
  · exact Or.inl rfl

lemma ender_state_cases (cfg : Config) (t : Table) (st2 : ListenerState)
    (a : Str) :
    (ender_step cfg t st2 a).1 = st2
      ∨ (ender_step cfg t st2 a).1 = ⟨[], none⟩ := by
  simp only [ender_step]
  split
  · split
    · split
      · split
        · exact Or.inl rfl
        · exact replace_state_cases st2 _
      · exact Or.inl rfl
    · exact Or.inl rfl
  · exact Or.inl rfl

lemma update_state_inv (cfg : Config) (t : Table) (buf : Str)
    (st : ListenerState) (point : Nat) (h : SessionInv t st) :
    SessionInv t (update_abbreviation cfg t buf st point).1 := by
  simp only [update_abbreviation]
  split
  · exact h
  · rename_i a b hreg
    split
    · exact h
    · split
      · rename_i hpre
        set text := substr buf (min a b + cfg.leader.length) point with htext
        have h1 : SessionInv t ⟨text, some (min a b, point)⟩ := fun _ =>
          Or.inr hpre
        rcases ender_state_cases cfg t
            (eager_step cfg t ⟨text, some (min a b, point)⟩ text).1 text
          with hf | hf
        · rw [hf]
          rcases eager_state_cases cfg t ⟨text, some (min a b, point)⟩ text
            with he | he
          · rw [he]
            exact h1
          · rw [he]
            exact session_inv_idle t
        · rw [hf]
          exact session_inv_idle t
      · exact session_inv_idle t

lemma on_modified_inv (cfg : Config) (t : Table) (buf : Str)
    (st : ListenerState) (point : Nat) (h : SessionInv t st) :
    SessionInv t (on_modified cfg t buf st point).1 := by
  simp only [on_modified]
  split
  · exact h
  · split
    · exact update_state_inv cfg t buf st point h
    · split
      · split
        · intro _
          exact Or.inl rfl
        · exact h
      · exact h

lemma on_selection_modified_inv (t : Table) (st : ListenerState)
    (point : Nat) (h : SessionInv t st) :
    SessionInv t (on_selection_modified t st point).1 := by
  simp only [on_selection_modified]
  split
  · exact h
  · split
    · exact h
    · split
      · exact h
      · exact session_inv_idle t

lemma applyCommits_listener (es : EditorState) (cs : List Commit) :
    (applyCommits es cs).listener = es.listener := by
  induction cs generalizing es with
  | nil => rfl
  | cons c cs ih => exact ih _

lemma stepEv_inv (cfg : Config) (t : Table) (es : EditorState) (e : Ev)
    (h : SessionInv t es.listener) :
    SessionInv t (stepEv cfg t es e).listener := by
  cases e with
  | insert s =>
    simp only [stepEv]
    rw [applyCommits_listener]
    exact on_modified_inv cfg t _ es.listener _ h
  | move p =>
    simp only [stepEv]
    rw [applyCommits_listener]
    exact on_selection_modified_inv t es.listener p h

lemma runScript_inv (cfg : Config) (t : Table) (evs : List Ev)
    (es : EditorState) (h : SessionInv t es.listener) :
    SessionInv t (runScript cfg t es evs).listener := by
  induction evs generalizing es with
  | nil => exact h
  | cons e evs ih => exact ih _ (stepEv_inv cfg t es e h)

/-- Claim C9: while tracking, the cached text is empty or a member of the
prefix set; on_modified and on_selection_modified preserve this invariant
(hence any event sequence does), and on the event whose text fails the
prefix test the session goes back to Idle, with no commit. -/
theorem c9_tracking_invariant (cfg : Config) (t : Table) :
    (∀ buf st point, SessionInv t st →
      SessionInv t (on_modified cfg t buf st point).1) ∧
    (∀ st point, SessionInv t st →
      SessionInv t (on_selection_modified t st point).1) ∧
    (∀ es evs, SessionInv t es.listener →
      SessionInv t (runScript cfg t es evs).listener) ∧
    (∀ buf st (point : Nat) a b, st.pending_region = some (a, b) → a ≠ b →
      cfg.enabled = true →
      regionContains a b ((point : Int) - 1) = true →
      is_prefix t (substr buf (min a b + cfg.leader.length) point) = false →
      on_modified cfg t buf st point = (⟨[], none⟩, [])) := by
  refine ⟨fun buf st point h => on_modified_inv cfg t buf st point h,
    fun st point h => on_selection_modified_inv t st point h,
    fun es evs h => runScript_inv cfg t evs es h, ?_⟩
  intro buf st point a b hr hab hen hcont hpre
  have htru : regionTruthy (some (a, b)) = true := by
    show (a != b) = true
    exact bne_iff_ne.2 hab
  have hco : regionContainsOpt (some (a, b)) ((point : Int) - 1) = true :=
    hcont
  simp [on_modified, update_abbreviation, hen, hr, htru, hco, hab, hpre]

/-- Witness for C9: the invariant holds at the initial state and is carried
through a short typing script. -/
theorem c9_tracking_invariant_witness :
    SessionInv tblForall initES.listener ∧
    SessionInv tblForall
      (runScript cfgDefault tblForall initES
        [Ev.insert (str "\\"), Ev.insert (str "f")]).listener :=
  ⟨by decide,
   (c9_tracking_invariant cfgDefault tblForall).2.2.1 initES
     [Ev.insert (str "\\"), Ev.insert (str "f")] (by decide)⟩

/-- Claim C3 amended: the invalidation transition of update_abbreviation
discards the span and never commits anything, eager mode included. -/
theorem c3_invalidation_discards (cfg : Config) (t : Table) (buf : Str)
    (st : ListenerState) (point : Nat) (a b : Nat)
    (hr : st.pending_region = some (a, b)) (hab : a ≠ b)
    (hpre : is_prefix t (substr buf (min a b + cfg.leader.length) point)
      = false) :
    update_abbreviation cfg t buf st point = (⟨[], none⟩, []) := by
  simp [update_abbreviation, hr, hab, hpre]

/-- Witness for C3: the invalidating keystroke z after the tracked text to
(eager mode, keys to and top) discards the span and emits no commit. -/
theorem c3_invalidation_discards_witness :
    is_prefix tblToTop
      (substr (str "\\toz") (min 0 3 + cfgEager.leader.length) 4) = false ∧
    update_abbreviation cfgEager tblToTop (str "\\toz")
      ⟨str "to", some (0, 3)⟩ 4 = (⟨[], none⟩, []) :=
  ⟨by decide,
   c3_invalidation_discards cfgEager tblToTop (str "\\toz")
     ⟨str "to", some (0, 3)⟩ 4 0 3 rfl (by decide) (by decide)⟩

def evsTo : List Ev :=
  [Ev.insert (str "\\"), Ev.insert (str "t"), Ev.insert (str "o")]

/-- Claim C3 counterexample: with table keys to and top and eager mode on,
the commit of the arrow happens already on the o keystroke (the completion
check wrongly treats to as non-extendable), so when the invalidating z
arrives the session is already Idle and the invalidation event commits
nothing: the commit log is unchanged by it.  The claim as stated (the
commit happens at the invalidation transition) is therefore false at this
input. -/
theorem c3_counterexample :
    (runScript cfgEager tblToTop initES evsTo).listener = ⟨[], none⟩ ∧
    (runScript cfgEager tblToTop initES evsTo).commits
      = [⟨0, 3, str "→"⟩] ∧
    (runScript cfgEager tblToTop initES
      (evsTo ++ [Ev.insert (str "z")])).commits = [⟨0, 3, str "→"⟩] ∧
    (runScript cfgEager tblToTop initES
      (evsTo ++ [Ev.insert (str "z")])).listener = ⟨[], none⟩ ∧
    (runScript cfgEager tblToTop initES
      (evsTo ++ [Ev.insert (str "z")])).buf = str "→z" := by
  decide

/-- Claim C5 amended: on a cursor move out of a truthy tracked region the
session always returns to Idle; the cached text is committed exactly when
it is non-empty and has a non-empty replacement in the table, and nothing
is committed when it is not a key or its replacement is empty (python
falsiness of the replacement string). -/
theorem c5_escape_commit (t : Table) (st : ListenerState) (point : Nat)
    (a b : Nat) (hr : st.pending_region = some (a, b)) (hab : a ≠ b)
    (hout : regionContains a b (point : Int) = false) :
    (on_selection_modified t st point).1 = ⟨[], none⟩ ∧
    (∀ r, get_replacement t st.pending_abbreviation = some r →
      st.pending_abbreviation ≠ [] → r ≠ [] →
      (on_selection_modified t st point).2 = [⟨min a b, max a b, r⟩]) ∧
    ((st.pending_abbreviation = [] ∨
        get_replacement t st.pending_abbreviation = none ∨
        get_replacement t st.pending_abbreviation = some []) →
      (on_selection_modified t st point).2 = []) := by
  refine ⟨?_, ?_, ?_⟩
  · simp [on_selection_modified, hr, hab, hout]
  · intro r hrep htne hrne
    simp [on_selection_modified, replace_abbreviation, hr, hab, hout, htne,
      hrep, hrne]
  · intro hcase
    rcases hcase with hc | hc | hc
    · simp [on_selection_modified, hr, hab, hout, hc]
    · by_cases hp : st.pending_abbreviation = [] <;>
        simp [on_selection_modified, hr, hab, hout, hp, hc]
    · by_cases hp : st.pending_abbreviation = [] <;>
        simp [on_selection_modified, hr, hab, hout, hp, hc]

def stAlpha : ListenerState := ⟨str "alpha", some (2, 8)⟩

/-- Witness for C5: moving the cursor to 0, outside the region (2, 8)
tracking alpha, commits the replacement and returns to Idle. -/
theorem c5_escape_commit_witness :
    (on_selection_modified tblAlpha stAlpha 0).1 = ⟨[], none⟩ ∧
    (on_selection_modified tblAlpha stAlpha 0).2
      = [⟨min 2 8, max 2 8, str "α"⟩] :=
  ⟨(c5_escape_commit tblAlpha stAlpha 0 2 8 rfl (by decide) (by decide)).1,
   (c5_escape_commit tblAlpha stAlpha 0 2 8 rfl (by decide)
     (by decide)).2.1 (str "α") (by decide) (by decide) (by decide)⟩

def esXX : EditorState := ⟨str "xx", 2, ⟨[], none⟩, []⟩

def evsAlpha : List Ev :=
  [Ev.insert (str "\\"), Ev.insert (str "a"), Ev.insert (str "l"),
   Ev.insert (str "p"), Ev.insert (str "h"), Ev.insert (str "a")]

/-- Claim C5 counterexample: with the table mapping the key alpha to the
empty replacement, typing the leader and alpha and then moving the cursor
away discards the span without any commit, even though the tracked text is
a key of the table, because the empty replacement string is falsy in
python.  The claim as stated (a key of entries is always committed) is
therefore false at this input. -/
theorem c5_counterexample :
    str "alpha" ∈ keys tblAlphaEmpty ∧
    (runScript cfgDefault tblAlphaEmpty esXX evsAlpha).listener
      = ⟨str "alpha", some (2, 8)⟩ ∧
    (runScript cfgDefault tblAlphaEmpty esXX
      (evsAlpha ++ [Ev.move 0])).commits = [] ∧
    (runScript cfgDefault tblAlphaEmpty esXX
      (evsAlpha ++ [Ev.move 0])).buf = str "xx\\alpha" ∧
    (runScript cfgDefault tblAlphaEmpty esXX
      (evsAlpha ++ [Ev.move 0])).listener = ⟨[], none⟩ := by
  decide

/-- Claim C4 amended: the commit operation deletes the span content and
inserts the replacement text verbatim: the part of the buffer before the
span is kept, the inserted segment equals the replacement exactly (so no
cursor-placeholder token is removed from it), and the rest of the buffer
follows right after; the length changes accordingly. -/
theorem c4_commit_verbatim (buf : Str) (rb re : Nat) (repl : Str)
    (h1 : rb ≤ re) (h2 : re ≤ buf.length) :
    (lean_replace_abbreviation buf rb re repl).take rb = buf.take rb ∧
    ((lean_replace_abbreviation buf rb re repl).drop rb).take repl.length
      = repl ∧
    (lean_replace_abbreviation buf rb re repl).drop (rb + repl.length)
      = buf.drop re ∧
    (lean_replace_abbreviation buf rb re repl).length
      = buf.length - (re - rb) + repl.length := by
  have hmin : min rb re = rb := min_eq_left h1
  have hmax : max rb re = re := max_eq_right h1
  have hA : (buf.take rb).length = rb := by
    rw [List.length_take]
    omega
  unfold lean_replace_abbreviation
  rw [hmin, hmax]
  refine ⟨?_, ?_, ?_, ?_⟩
  · have ht := List.take_left (buf.take rb) (repl ++ buf.drop re)
    rw [hA] at ht
    rw [List.append_assoc]
    exact ht
  · have hd := List.drop_left (buf.take rb) (repl ++ buf.drop re)
    rw [hA] at hd
    rw [List.append_assoc, hd]
    exact List.take_left _ _
  · have hAB : (buf.take rb ++ repl).length = rb + repl.length := by
      rw [List.length_append, hA]
    have hd := List.drop_left (buf.take rb ++ repl) (buf.drop re)
    rw [hAB] at hd
    exact hd
  · rw [List.length_append, List.length_append, hA, List.length_drop]
    omega

/-- Witness for C4: committing the replacement over the span (0, 6) of the
buffer keeps the replacement text verbatim as the inserted segment. -/
theorem c4_commit_verbatim_witness :
    (0 : Nat) ≤ 6 ∧ 6 ≤ (str "\\alpha").length ∧
    ((lean_replace_abbreviation (str "\\alpha") 0 6 (str "∀")).drop 0).take
      (str "∀").length = str "∀" :=
  ⟨by decide, by decide,
   (c4_commit_verbatim (str "\\alpha") 0 6 (str "∀") (by decide)
     (by decide)).2.1⟩

/-- Claim C4 counterexample: the command inserts the replacement verbatim;
taking the conventional cursor placeholder marker as the designated token,
a replacement containing it ends up in the buffer with the token still
present, not removed as the claim states. -/
theorem c4_counterexample :
    lean_replace_abbreviation (str "\\alpha") 0 6 (str "α$CURSOR")
      = str "α$CURSOR" ∧
    lean_replace_abbreviation (str "\\alpha") 0 6 (str "α$CURSOR")
      ≠ str "α" := by
  decide

def evsForall : List Ev :=
  [Ev.insert (str "\\"), Ev.insert (str "f"), Ev.insert (str "o"),
   Ev.insert (str "r"), Ev.insert (str "a"), Ev.insert (str "l"),
   Ev.insert (str "l"), Ev.insert (str "\t")]

/-- Claim C1 (code bug evidence): with the table mapping forall to the
universal quantifier glyph, the default leader and tab ender, the session
tracks forall (a complete abbreviation), but the tab keystroke makes the
text forall-tab fail the prefix test, so the else branch of
update_abbreviation clears the state before the ender-stripping block
(which is nested inside the prefix-test branch) can run: no commit is
emitted, the buffer keeps the raw text, and the session goes Idle.  The
claim says the replacement is committed and the tab consumed. -/
theorem c1_ender_not_consumed :
    (runScript cfgDefault tblForall initES (evsForall.take 7)).listener
      = ⟨str "forall", some (0, 7)⟩ ∧
    is_complete_abbreviation tblForall (str "forall") = true ∧
    (runScript cfgDefault tblForall initES evsForall).commits = [] ∧
    (runScript cfgDefault tblForall initES evsForall).listener
      = ⟨[], none⟩ ∧
    (runScript cfgDefault tblForall initES evsForall).buf
      = str "\\forall\t" := by
  decide
